import Mathlib

/-!
Shallow embedding of the `enigma` repository (tristan-jl/enigma).

The repository contains two cipher-engine variants:

* the `Enigma` engine: `src/lib.rs` together with `src/utils.rs` and the
  components in `src/components/` (`rotor.rs`, `reflector.rs`, `plugboard.rs`);
* the `Machine` engine: `src/machine.rs` together with `src/components.rs`,
  whose crate root (providing `char_to_wire`, `wire_to_char`,
  `Rotor::from_name`, `Reflector::from_name`, `identity_wiring` and a
  crate-level `encoding_to_wiring`) is not part of the sources; those helpers
  are modelled from the specification and marked as such.

Machine integers (`u8`, `usize`, `isize`) are embedded as `Nat`/`Int` with
explicit wrapping where the source wraps.  Rust panics (out-of-bounds
indexing, integer overflow aborts, explicit `panic!`) are embedded as `none`
of an `Option`-typed result.  Strings are embedded at the byte level for the
`Enigma` engine (its `encrypt` iterates over the bytes of the lowercased
message) and at the character level for the `Machine` engine (its `encrypt`
iterates over `chars()`); both embeddings are faithful on ASCII input, which
is all the specification's vectors use.
-/

/-! ## utils.rs -/

/-- utils.rs `MAX_VALUE`. -/
def MAX_VALUE : Nat := 26

/-- utils.rs `impl From<u8> for ClockInt`: the stored value is reduced
`rem_euclid(MAX_VALUE)`; on `u8` inputs `rem_euclid` is plain `%`. -/
def clockFrom (v : Nat) : Nat := v % MAX_VALUE

/-- utils.rs `impl Add for ClockInt`: `Self::from(self.value() + rhs.value())`. -/
def clockAdd (a b : Nat) : Nat := clockFrom (a + b)

/-- utils.rs `impl Sub for ClockInt`:
`Self::from((self.value() + MAX_VALUE - rhs.value().rem_euclid(MAX_VALUE)).rem_euclid(MAX_VALUE))`.
Both operands hold values below `MAX_VALUE`, so the `u8` additions cannot
overflow. -/
def clockSub (a b : Nat) : Nat := clockFrom ((a + MAX_VALUE - b % MAX_VALUE) % MAX_VALUE)

/-- utils.rs `encoding_to_wiring`: lowercase the encoding and map each byte
`b` to `b - 97`.  The encodings used by the crate are ASCII letters, for which
Rust's Unicode `to_lowercase` agrees with per-character ASCII lowercasing. -/
def encoding_to_wiring (encoding : String) : List Nat :=
  (encoding.data.map Char.toLower).map (fun c => c.toNat - 97)

/-! ## components/rotor.rs -/

/-- rotor.rs `enum RotorName`. -/
inductive RotorName where
  | One | Two | Three | Four | Five | Six | Seven | Eight
deriving DecidableEq, Repr

/-- rotor.rs error message of `RotorName::try_from`. -/
def rotorNameMsg : String := "RotorName must be a roman numeral from 1 to 8."

/-- rotor.rs `impl TryFrom<&str> for RotorName`. -/
def RotorName.tryFrom (input : String) : Except String RotorName :=
  match input with
  | "I" => .ok .One
  | "II" => .ok .Two
  | "III" => .ok .Three
  | "IV" => .ok .Four
  | "V" => .ok .Five
  | "VI" => .ok .Six
  | "VII" => .ok .Seven
  | "VIII" => .ok .Eight
  | _ => .error rotorNameMsg

/-- rotor.rs `struct Rotor`. -/
structure Rotor where
  name : RotorName
  position : Nat
  ring_setting : Nat
  wiring : List Nat
  inverse_wiring : List Nat
  notch_positions : List Nat
deriving DecidableEq, Repr

instance : Inhabited Rotor := ⟨⟨RotorName.One, 0, 0, [], [], []⟩⟩

/-- rotor.rs `invert_wiring`: start from `[0; 26]` and set
`inverse_wiring[w] = n` for each entry `(n, w)` of the wiring. -/
def invert_wiring (wiring : List Nat) : List Nat :=
  wiring.enum.foldl (fun acc p => acc.set p.2 p.1) (List.replicate 26 0)

/-- rotor.rs `Rotor::new`.  Position and ring setting go through
`ClockInt::from`, hence are reduced mod 26. -/
def Rotor.new (name : String) (raw_position raw_ring_setting : Nat) :
    Except String Rotor :=
  match RotorName.tryFrom name with
  | .error e => .error e
  | .ok rotor_name =>
    let helper := fun (encoding : String) (notch_positions : List Nat) =>
      { name := rotor_name
        position := clockFrom raw_position
        ring_setting := clockFrom raw_ring_setting
        wiring := encoding_to_wiring encoding
        inverse_wiring := invert_wiring (encoding_to_wiring encoding)
        notch_positions := notch_positions : Rotor }
    match rotor_name with
    | .One => .ok (helper "EKMFLGDQVZNTOWYHXUSPAIBRCJ" [16])
    | .Two => .ok (helper "AJDKSIRUXBLHWTMCQGZNPYFVOE" [4])
    | .Three => .ok (helper "BDFHJLCPRTXVZNYEIWGAKMUSQO" [21])
    | .Four => .ok (helper "ESOVPZJAYQUIRHXLNFTGKDCMWB" [9])
    | .Five => .ok (helper "VZBRGITYUPSDNHLXAWMJQOFECK" [25])
    | .Six => .ok (helper "JPGVOUMFYQBENHZRDKASXLICTW" [25, 12])
    | .Seven => .ok (helper "NZJHGRCXMYSWBOUFAIVLPEKQDT" [25, 12])
    | .Eight => .ok (helper "FKQHTLXOCBJSPDZRAMEWNIUYGV" [25, 12])

/-- rotor.rs `Rotor::at_notch`. -/
def Rotor.at_notch (r : Rotor) : Bool :=
  r.notch_positions.any (fun x => x == r.position)

/-- rotor.rs `Rotor::turnover`: `position += 1` on a `ClockInt`. -/
def Rotor.turnover (r : Rotor) : Rotor :=
  { r with position := (r.position + 1) % MAX_VALUE }

/-- rotor.rs `Component::forward` for `Rotor`.  The index
`(offset + letter).value()` is always below 26, and every constructed wiring
has length 26, so the `getD` default is never consulted for rotors built by
`Rotor.new`. -/
def Rotor.forward (r : Rotor) (letter : Nat) : Nat :=
  let offset := clockSub r.position r.ring_setting
  clockSub (clockFrom (r.wiring.getD (clockAdd offset letter) 0)) offset

/-- rotor.rs `Component::backward` for `Rotor`: same formula on
`inverse_wiring`. -/
def Rotor.backward (r : Rotor) (letter : Nat) : Nat :=
  let offset := clockSub r.position r.ring_setting
  clockSub (clockFrom (r.inverse_wiring.getD (clockAdd offset letter) 0)) offset

/-! ## components/reflector.rs -/

/-- reflector.rs `struct Reflector`. -/
structure Reflector where
  wiring : List Nat
deriving DecidableEq, Repr

/-- reflector.rs `Reflector::from_encoding`. -/
def Reflector.from_encoding (encoding : String) : Reflector :=
  ⟨encoding_to_wiring encoding⟩

/-- Lowercasing of a string, character by character; agrees with Rust
`str::to_lowercase` on ASCII strings, the only ones the crate compares
against. -/
def strToLower (s : String) : String :=
  ⟨s.data.map Char.toLower⟩

/-- reflector.rs `Reflector::new`. -/
def Reflector.new (reflector_type : String) : Except String Reflector :=
  match strToLower reflector_type with
  | "a" => .ok (Reflector.from_encoding "ejmzalyxvbwfcrquontspikhgd")
  | "b" => .ok (Reflector.from_encoding "yruhqsldpxngokmiebfzcwvjat")
  | "c" => .ok (Reflector.from_encoding "fvpjiaoyedrzxwgctkuqsbnmhl")
  | "i" => .ok (Reflector.from_encoding "abcdefghijklmnopqrstuvwxyz")
  | _ => .error ("Invalid reflector type, " ++ reflector_type)

/-- reflector.rs `Component::forward` for `Reflector`: table lookup. -/
def Reflector.forward (r : Reflector) (letter : Nat) : Nat :=
  r.wiring.getD letter 0

/-- reflector.rs `Component::backward` for `Reflector`: the identity. -/
def Reflector.backward (_r : Reflector) (letter : Nat) : Nat :=
  letter

/-! ## components/plugboard.rs -/

/-- plugboard.rs `struct Plugboard`. -/
structure Plugboard where
  wiring : List Nat
deriving DecidableEq, Repr

/-- plugboard.rs error message for a connection that is not two bytes long. -/
def pairMsg (char_pair : String) : String :=
  "plugboard connections " ++ char_pair ++ " not a pair"

/-- plugboard.rs error message for a duplicated letter; the `format!` prints
the numeric wire values. -/
def dupMsg (c1 c2 : Nat) : String :=
  "Invalid connections. " ++ toString c1 ++ " or " ++ toString c2 ++
    " is duplicated."

/-- Byte value of character `i` of an ASCII string (the crate's plugboard
pairs); out-of-range positions are unreachable behind the length test. -/
def byteAt (s : String) (i : Nat) : Nat :=
  (s.data.getD i ' ').toNat

/-- plugboard.rs: the loop body of `Plugboard::new` over the connection list.
`seen` models the `HashSet`, `wiring` the table being built.  `b - 97` on a
`u8` is embedded with release-mode wrapping, `(b + 256 - 97) % 256`; a
resulting wire value of 26 or more makes `wiring[c as usize]` panic
(embedded as `none`), which is also where every input that the debug-mode
subtraction would abort on ends up. -/
def pbLoop : List String → List Nat → List Nat → Option (Except String (List Nat))
  | [], _, wiring => some (.ok wiring)
  | char_pair :: rest, seen, wiring =>
    if char_pair.length ≠ 2 then
      some (.error (pairMsg char_pair))
    else
      let c1 := (byteAt char_pair 0 + 256 - 97) % 256
      let c2 := (byteAt char_pair 1 + 256 - 97) % 256
      if seen.contains c1 || seen.contains c2 then
        some (.error (dupMsg c1 c2))
      else if c1 < 26 ∧ c2 < 26 then
        pbLoop rest (c2 :: c1 :: seen) ((wiring.set c1 c2).set c2 c1)
      else
        none

/-- plugboard.rs `Plugboard::new`: identity wiring, then the connection
loop. -/
def Plugboard.new (connections : List String) :
    Option (Except String Plugboard) :=
  match pbLoop connections [] (List.range 26) with
  | none => none
  | some (.error e) => some (.error e)
  | some (.ok wiring) => some (.ok ⟨wiring⟩)

/-- plugboard.rs `Component::forward` for `Plugboard`. -/
def Plugboard.forward (p : Plugboard) (letter : Nat) : Nat :=
  p.wiring.getD letter 0

/-- plugboard.rs `Component::backward` for `Plugboard`: same lookup. -/
def Plugboard.backward (p : Plugboard) (letter : Nat) : Nat :=
  p.wiring.getD letter 0

/-! ## lib.rs -/

/-- lib.rs `struct Enigma`. -/
structure Enigma where
  rotors : List Rotor
  reflector : Reflector
  plugboard : Plugboard
deriving DecidableEq, Repr

instance : Inhabited Enigma := ⟨⟨[], ⟨[]⟩, ⟨[]⟩⟩⟩

/-- lib.rs error message for mismatched or too-short argument vectors. -/
def countMsg : String :=
  "Rotor names, ring settings and rotor positions must have the same length and their length must be greater than 1"

/-- lib.rs `Enigma::new` rotor loop, already applied to the reversed list of
`(name, position, ring_setting)` triples: the source iterates
`(0..len).rev()` pushing each built rotor, returning the first error. -/
def rotorsFromSpecs : List (String × Nat × Nat) → Except String (List Rotor)
  | [] => .ok []
  | (n, p, s) :: rest =>
    match Rotor.new n p s with
    | .error e => .error e
    | .ok r =>
      match rotorsFromSpecs rest with
      | .error e => .error e
      | .ok rs => .ok (r :: rs)

/-- lib.rs `Enigma::new`. -/
def Enigma.new (rotor_names : List String) (ring_settings rotor_positions : List Nat)
    (reflector_type : String) (plugboard_connections : List String) :
    Option (Except String Enigma) :=
  if rotor_names.length ≠ ring_settings.length ∨
      rotor_names.length ≠ rotor_positions.length ∨
      rotor_names.length ≤ 1 then
    some (.error countMsg)
  else
    match rotorsFromSpecs
        ((rotor_names.zip (rotor_positions.zip ring_settings)).reverse) with
    | .error e => some (.error e)
    | .ok rotors =>
      match Reflector.new reflector_type with
      | .error e => some (.error e)
      | .ok reflector =>
        match Plugboard.new plugboard_connections with
        | none => none
        | some (.error e) => some (.error e)
        | some (.ok plugboard) => some (.ok ⟨rotors, reflector, plugboard⟩)

/-- lib.rs `Enigma::rotate`.  `rotors[1]` and `rotors[2]` are plain index
expressions in the source: accessing them out of bounds panics, embedded as
`none`.  The access to `rotors[2]` is not guarded by any length test. -/
def rotate (rs : List Rotor) : Option (List Rotor) :=
  let afterInner : Option (List Rotor) :=
    if 1 < rs.length then
      match rs[1]? with
      | none => none
      | some r1 =>
        if r1.at_notch then
          match rs[2]? with
          | none => none
          | some r2 => some ((rs.set 1 r1.turnover).set 2 r2.turnover)
        else
          match rs[0]? with
          | none => none
          | some r0 => if r0.at_notch then some (rs.set 1 r1.turnover) else some rs
    else some rs
  match afterInner with
  | none => none
  | some rs2 =>
    match rs2[0]? with
    | none => none
    | some r0 => some (rs2.set 0 r0.turnover)

/-- lib.rs `Enigma::encrypt_single`: rotate, then push the signal through
plugboard, rotors right to left, reflector forward and backward, rotors left
to right, plugboard. -/
def encrypt_single (e : Enigma) (letter : Nat) : Option (Nat × Enigma) :=
  match rotate e.rotors with
  | none => none
  | some rs =>
    let res := e.plugboard.forward letter
    let res := rs.foldl (fun acc r => r.forward acc) res
    let res := e.reflector.forward res
    let res := e.reflector.backward res
    let res := rs.reverse.foldl (fun acc r => r.backward acc) res
    let res := e.plugboard.backward res
    some (res, { e with rotors := rs })

/-- ASCII lowercasing of one byte, matching what Rust `to_lowercase` does to
each byte of an ASCII string. -/
def asciiToLower (b : Nat) : Nat :=
  if 65 ≤ b ∧ b ≤ 90 then b + 32 else b

/-- lib.rs `Enigma::encrypt` byte loop, after lowercasing: bytes in
`97..=122` are enciphered and emitted as `res + 97`; every other byte is
emitted unchanged. -/
def encryptBytes (e : Enigma) : List Nat → Option (List Nat × Enigma)
  | [] => some ([], e)
  | b :: rest =>
    if 97 ≤ b ∧ b ≤ 122 then
      match encrypt_single e (b - 97) with
      | none => none
      | some (c, e2) =>
        match encryptBytes e2 rest with
        | none => none
        | some (out, e3) => some ((c + 97) :: out, e3)
    else
      match encryptBytes e rest with
      | none => none
      | some (out, e2) => some (b :: out, e2)

/-- lib.rs `Enigma::encrypt` on the bytes of the message: lowercase, then
the per-byte loop. -/
def Enigma.encrypt (e : Enigma) (message : List Nat) : Option (List Nat × Enigma) :=
  encryptBytes e (message.map asciiToLower)

/-- Convenience projection: a successfully constructed machine. -/
def newOk (rotor_names : List String) (ring_settings rotor_positions : List Nat)
    (reflector_type : String) (plugboard_connections : List String) : Option Enigma :=
  match Enigma.new rotor_names ring_settings rotor_positions reflector_type
      plugboard_connections with
  | some (.ok e) => some e
  | _ => none

/-- The machine of the crate's own test configuration: rotors I, II, III,
ring settings 1,1,1, positions 0,0,0, reflector b, empty plugboard. -/
def stdEnigma : Enigma :=
  match Enigma.new ["I", "II", "III"] [1, 1, 1] [0, 0, 0] "b" [] with
  | some (.ok e) => e
  | _ => default

example : (encryptBytes stdEnigma [97, 97, 97, 97, 97]).map Prod.fst =
    some [101, 119, 116, 121, 120] := by decide

/-! ## machine.rs and components.rs (the `Machine` engine)

The crate root of this engine (`char_to_wire`, `wire_to_char`,
`identity_wiring`, a crate-level `encoding_to_wiring`, `Rotor::from_name`,
`Reflector::from_name`) is not among the sources; those definitions are
modelled from the specification, as marked on each. -/

namespace MV

/-- Modelled from the spec: the crate-root `identity_wiring`, "the alphabet's
identity permutation" of section 9. -/
def identity_wiring : List Nat := List.range 26

/-- Modelled from the spec: the crate-root `encoding_to_wiring` of this
engine, per section 4.1 (build the table from a 26-character string,
case-insensitively); `components.rs` passes it uppercase encodings. -/
def encoding_to_wiring (encoding : String) : List Nat :=
  encoding.data.map (fun c => c.toLower.toNat - 97)

/-- Modelled from the spec: the crate-root `char_to_wire`,
"character-to-symbol conversion is case-insensitive on input" (section 4.1).
Only alphabetic characters are valid inputs at this layer. -/
def char_to_wire (c : Char) : Nat := c.toLower.toNat - 97

/-- Modelled from the spec: the crate-root `wire_to_char`, symbol-to-character
conversion "case-normalized on output" (section 4.1); the machine.rs doctests
and tests fix the output case as uppercase. -/
def wire_to_char (l : Nat) : Char := Char.ofNat (l + 65)

/-- components.rs `struct Rotor`. -/
structure Rotor where
  forward_wiring : List Nat
  backward_wiring : List Nat
  position : Nat
  ring_setting : Nat
  notch_position : List Nat
deriving DecidableEq, Repr

/-- components.rs `Rotor::new`: `position` and `ring_setting` are stored as
supplied, with no reduction. -/
def Rotor.new (encoding : String) (position ring_setting : Nat)
    (notch_position : List Nat) : Rotor :=
  let forward_wiring := encoding_to_wiring encoding
  let backward_wiring := (List.range 26).foldl
    (fun acc i => acc.set (forward_wiring.getD i 0) i) (List.replicate 26 0)
  { forward_wiring, backward_wiring, position, ring_setting, notch_position }

/-- components.rs `rotor_cons!` constructor for rotor I: arguments are
`(ring_setting, position)`. -/
def Rotor.i (ring_setting position : Nat) : Rotor :=
  Rotor.new "EKMFLGDQVZNTOWYHXUSPAIBRCJ" position ring_setting [16]

/-- components.rs constructor for rotor II. -/
def Rotor.ii (ring_setting position : Nat) : Rotor :=
  Rotor.new "AJDKSIRUXBLHWTMCQGZNPYFVOE" position ring_setting [4]

/-- components.rs constructor for rotor III. -/
def Rotor.iii (ring_setting position : Nat) : Rotor :=
  Rotor.new "BDFHJLCPRTXVZNYEIWGAKMUSQO" position ring_setting [21]

/-- components.rs constructor for rotor IV. -/
def Rotor.iv (ring_setting position : Nat) : Rotor :=
  Rotor.new "ESOVPZJAYQUIRHXLNFTGKDCMWB" position ring_setting [9]

/-- components.rs constructor for rotor V. -/
def Rotor.v (ring_setting position : Nat) : Rotor :=
  Rotor.new "VZBRGITYUPSDNHLXAWMJQOFECK" position ring_setting [25]

/-- components.rs constructor for rotor VI. -/
def Rotor.vi (ring_setting position : Nat) : Rotor :=
  Rotor.new "JPGVOUMFYQBENHZRDKASXLICTW" position ring_setting [12, 25]

/-- components.rs constructor for rotor VII. -/
def Rotor.vii (ring_setting position : Nat) : Rotor :=
  Rotor.new "NZJHGRCXMYSWBOUFAIVLPEKQDT" position ring_setting [12, 25]

/-- components.rs constructor for rotor VIII. -/
def Rotor.viii (ring_setting position : Nat) : Rotor :=
  Rotor.new "FKQHTLXOCBJSPDZRAMEWNIUYGV" position ring_setting [12, 25]

/-- Modelled from the spec: `Rotor::from_name` (the crate-root dispatch used
by `Machine::new`), "name must match one of 8 recognized classical rotor
identifiers" (section 4.2), an unrecognized name being an invalid
configuration. -/
def Rotor.from_name (name : String) (ring_setting position : Nat) : Option Rotor :=
  match name with
  | "I" => some (Rotor.i ring_setting position)
  | "II" => some (Rotor.ii ring_setting position)
  | "III" => some (Rotor.iii ring_setting position)
  | "IV" => some (Rotor.iv ring_setting position)
  | "V" => some (Rotor.v ring_setting position)
  | "VI" => some (Rotor.vi ring_setting position)
  | "VII" => some (Rotor.vii ring_setting position)
  | "VIII" => some (Rotor.viii ring_setting position)
  | _ => none

/-- components.rs `Rotor::at_notch`. -/
def Rotor.at_notch (r : Rotor) : Bool :=
  r.notch_position.any (fun n => r.position == n)

/-- components.rs `Rotor::turnover`. -/
def Rotor.turnover (r : Rotor) : Rotor :=
  { r with position := (r.position + 1) % 26 }

/-- components.rs `Rotor::encipher`.  The arithmetic is on `isize`, whose `%`
truncates toward zero; casting a negative remainder `as usize` produces a
huge index and the table access panics (`none` here), and casting a negative
remainder `as u8` wraps mod 256. -/
def Rotor.encipher (r : Rotor) (wiring : List Nat) (letter : Nat) : Option Nat :=
  let shift : Int := (r.position : Int) - (r.ring_setting : Int)
  let idx : Int := ((letter : Int) + shift + 26).tmod 26
  if idx < 0 then none
  else
    let v : Int := ((wiring.getD idx.toNat 0 : Int) - shift + 26).tmod 26
    some (if 0 ≤ v then v.toNat else (v + 256).toNat)

/-- components.rs `Rotor::forward`. -/
def Rotor.forward (r : Rotor) (letter : Nat) : Option Nat :=
  r.encipher r.forward_wiring letter

/-- components.rs `Rotor::backward`. -/
def Rotor.backward (r : Rotor) (letter : Nat) : Option Nat :=
  r.encipher r.backward_wiring letter

/-- components.rs `struct Reflector`. -/
structure Reflector where
  wiring : List Nat
deriving DecidableEq, Repr

/-- components.rs `Reflector::from_encoding`. -/
def Reflector.from_encoding (encoding : String) : Reflector :=
  ⟨encoding_to_wiring encoding⟩

/-- components.rs `Reflector::a`. -/
def Reflector.a : Reflector := Reflector.from_encoding "EJMZALYXVBWFCRQUONTSPIKHGD"

/-- components.rs `Reflector::b`. -/
def Reflector.b : Reflector := Reflector.from_encoding "YRUHQSLDPXNGOKMIEBFZCWVJAT"

/-- components.rs `Reflector::c`. -/
def Reflector.c : Reflector := Reflector.from_encoding "FVPJIAOYEDRZXWGCTKUQSBNMHL"

/-- Modelled from the spec: `Reflector::from_name` (the crate-root dispatch
used by `Machine::new`), section 4.3: one of the three classical variants or
the identity variant, case-insensitively; anything else is an invalid
configuration. -/
def Reflector.from_name (reflector_type : String) : Option Reflector :=
  match strToLower reflector_type with
  | "a" => some Reflector.a
  | "b" => some Reflector.b
  | "c" => some Reflector.c
  | "i" => some ⟨identity_wiring⟩
  | _ => none

/-- components.rs `Reflector::forward`: a plain table access, panicking
(`none`) on a wire value outside the table. -/
def Reflector.forward (r : Reflector) (letter : Nat) : Option Nat :=
  if letter < 26 then some (r.wiring.getD letter 0) else none

/-- components.rs `struct Plugboard`. -/
structure Plugboard where
  wiring : List Nat
deriving DecidableEq, Repr

/-- Whitespace splitting of `str::split_whitespace`: split at whitespace and
drop empty chunks. -/
def splitWhitespace (s : String) : List String :=
  ((s.data.splitOnP (fun c => c.isWhitespace)).map (fun l => String.mk l)).filter
    (fun t => t ≠ "")

/-- components.rs: loop body of `Plugboard::from_connections`.  A pair with
fewer than two characters is skipped; a repeated letter hits the explicit
`panic!` (`none`); a wire value outside the table makes the table update
panic. -/
def pbConnLoop : List String → List Nat → List Nat → Option (List Nat)
  | [], _, wiring => some wiring
  | char_pair :: rest, seen, wiring =>
    match char_pair.data[0]?, char_pair.data[1]? with
    | some ch1, some ch2 =>
      let c1 := char_to_wire ch1
      let c2 := char_to_wire ch2
      if seen.contains c1 then none
      else if (c1 :: seen).contains c2 then none
      else if c1 < 26 ∧ c2 < 26 then
        pbConnLoop rest (c2 :: c1 :: seen) ((wiring.set c1 c2).set c2 c1)
      else none
    | _, _ => pbConnLoop rest seen wiring

/-- components.rs `Plugboard::from_connections`. -/
def Plugboard.from_connections (connections : String) : Option Plugboard :=
  match pbConnLoop (splitWhitespace connections) [] identity_wiring with
  | none => none
  | some wiring => some ⟨wiring⟩

/-- components.rs `Plugboard::forward`: table access, panicking (`none`) on a
wire value outside the table. -/
def Plugboard.forward (p : Plugboard) (letter : Nat) : Option Nat :=
  if letter < 26 then some (p.wiring.getD letter 0) else none

/-- machine.rs `struct Machine`. -/
structure Machine where
  left_rotor : Rotor
  middle_rotor : Rotor
  right_rotor : Rotor
  reflector : Reflector
  plugboard : Plugboard
deriving DecidableEq, Repr

/-- machine.rs `Machine::new`; an invalid rotor name, reflector name or
plugboard connection list surfaces as `none`. -/
def Machine.new (rotors : String × String × String)
    (ring_settings rotor_positions : Nat × Nat × Nat)
    (reflector_type : String) (plugboard_connections : String) : Option Machine :=
  match Rotor.from_name rotors.1 ring_settings.1 rotor_positions.1,
      Rotor.from_name rotors.2.1 ring_settings.2.1 rotor_positions.2.1,
      Rotor.from_name rotors.2.2 ring_settings.2.2 rotor_positions.2.2,
      Reflector.from_name reflector_type,
      Plugboard.from_connections plugboard_connections with
  | some l, some m, some r, some refl, some plug =>
    some { left_rotor := l, middle_rotor := m, right_rotor := r,
           reflector := refl, plugboard := plug }
  | _, _, _, _, _ => none

/-- machine.rs `Machine::rotate`. -/
def Machine.rotate (m : Machine) : Machine :=
  let m1 :=
    if m.middle_rotor.at_notch then
      { m with middle_rotor := m.middle_rotor.turnover
               left_rotor := m.left_rotor.turnover }
    else if m.right_rotor.at_notch then
      { m with middle_rotor := m.middle_rotor.turnover }
    else m
  { m1 with right_rotor := m1.right_rotor.turnover }

/-- machine.rs: `char::is_ascii_alphabetic`. -/
def isAsciiAlphabetic (c : Char) : Bool :=
  (65 ≤ c.toNat && c.toNat ≤ 90) || (97 ≤ c.toNat && c.toNat ≤ 122)

/-- machine.rs `Machine::encrypt`: per character, a non-alphabetic character
is dropped from the output (`flat_map` returning `None`) without touching the
machine; an alphabetic character first rotates the rotors, then runs the
signal path plugboard, right, middle, left, reflector, left, middle, right,
plugboard. -/
def Machine.encrypt (m : Machine) : List Char → Option (List Char × Machine)
  | [] => some ([], m)
  | ch :: rest =>
    if isAsciiAlphabetic ch then
      let m1 := m.rotate
      match (do
        let l := char_to_wire ch
        let l ← m1.plugboard.forward l
        let l ← m1.right_rotor.forward l
        let l ← m1.middle_rotor.forward l
        let l ← m1.left_rotor.forward l
        let l ← m1.reflector.forward l
        let l ← m1.left_rotor.backward l
        let l ← m1.middle_rotor.backward l
        let l ← m1.right_rotor.backward l
        let l ← m1.plugboard.forward l
        pure l : Option Nat) with
      | none => none
      | some l =>
        match Machine.encrypt m1 rest with
        | none => none
        | some (out, m2) => some (wire_to_char l :: out, m2)
    else
      Machine.encrypt m rest

/-- The machine of the crate's test configuration: rotors I,II,III, ring
settings 1,1,1, positions 0,0,0, reflector B, empty plugboard. -/
def stdMachine : Option Machine :=
  Machine.new ("I", "II", "III") (1, 1, 1) (0, 0, 0) "B" ""

/-- Output of a fresh test-configuration machine on a message. -/
def stdMachineOut (message : List Char) : Option (List Char) :=
  stdMachine.bind (fun m => (m.encrypt message).map Prod.fst)

end MV

example : MV.stdMachineOut "AAAAA".data = some "EWTYX".data := by decide
example : MV.stdMachineOut "HELLOXWORLD".data = some "LOFUHZZLZOM".data := by decide
example : MV.stdMachineOut "toxcaps".data = some "PESEXKY".data := by decide

/-! ## Well-formedness of constructed components -/

/-- A 26-entry table with entries below 26 that is its own inverse. -/
def involutionTable (w : List Nat) : Prop :=
  w.length = 26 ∧ (∀ i < 26, w.getD i 0 < 26) ∧
    (∀ i < 26, w.getD (w.getD i 0) 0 = i)

instance (w : List Nat) : Decidable (involutionTable w) := by
  unfold involutionTable; infer_instance

/-- Mutually inverse 26-entry permutation tables with entries below 26. -/
def RotorTablesWF (w iw : List Nat) : Prop :=
  w.length = 26 ∧ iw.length = 26 ∧
    (∀ i < 26, w.getD i 0 < 26) ∧ (∀ i < 26, iw.getD i 0 < 26) ∧
    (∀ i < 26, iw.getD (w.getD i 0) 0 = i) ∧
    (∀ i < 26, w.getD (iw.getD i 0) 0 = i)

instance (w iw : List Nat) : Decidable (RotorTablesWF w iw) := by
  unfold RotorTablesWF; infer_instance

/-- Invariant of every rotor built by `Rotor.new` and maintained by
`turnover`. -/
def Rotor.WF (r : Rotor) : Prop :=
  RotorTablesWF r.wiring r.inverse_wiring ∧ r.position < 26 ∧ r.ring_setting < 26

/-- Invariant of every reflector built by `Reflector.new`. -/
def Reflector.WF (r : Reflector) : Prop := involutionTable r.wiring

/-- Invariant of every plugboard built by `Plugboard.new`. -/
def Plugboard.WF (p : Plugboard) : Prop := involutionTable p.wiring

instance (r : Rotor) : Decidable r.WF := by unfold Rotor.WF; infer_instance

instance (r : Reflector) : Decidable r.WF := by
  unfold Reflector.WF; infer_instance

instance (p : Plugboard) : Decidable p.WF := by
  unfold Plugboard.WF; infer_instance

theorem tablesWF_I : RotorTablesWF (encoding_to_wiring "EKMFLGDQVZNTOWYHXUSPAIBRCJ")
    (invert_wiring (encoding_to_wiring "EKMFLGDQVZNTOWYHXUSPAIBRCJ")) := by decide

theorem tablesWF_II : RotorTablesWF (encoding_to_wiring "AJDKSIRUXBLHWTMCQGZNPYFVOE")
    (invert_wiring (encoding_to_wiring "AJDKSIRUXBLHWTMCQGZNPYFVOE")) := by decide

theorem tablesWF_III : RotorTablesWF (encoding_to_wiring "BDFHJLCPRTXVZNYEIWGAKMUSQO")
    (invert_wiring (encoding_to_wiring "BDFHJLCPRTXVZNYEIWGAKMUSQO")) := by decide

theorem tablesWF_IV : RotorTablesWF (encoding_to_wiring "ESOVPZJAYQUIRHXLNFTGKDCMWB")
    (invert_wiring (encoding_to_wiring "ESOVPZJAYQUIRHXLNFTGKDCMWB")) := by decide

theorem tablesWF_V : RotorTablesWF (encoding_to_wiring "VZBRGITYUPSDNHLXAWMJQOFECK")
    (invert_wiring (encoding_to_wiring "VZBRGITYUPSDNHLXAWMJQOFECK")) := by decide

theorem tablesWF_VI : RotorTablesWF (encoding_to_wiring "JPGVOUMFYQBENHZRDKASXLICTW")
    (invert_wiring (encoding_to_wiring "JPGVOUMFYQBENHZRDKASXLICTW")) := by decide

theorem tablesWF_VII : RotorTablesWF (encoding_to_wiring "NZJHGRCXMYSWBOUFAIVLPEKQDT")
    (invert_wiring (encoding_to_wiring "NZJHGRCXMYSWBOUFAIVLPEKQDT")) := by decide

theorem tablesWF_VIII : RotorTablesWF (encoding_to_wiring "FKQHTLXOCBJSPDZRAMEWNIUYGV")
    (invert_wiring (encoding_to_wiring "FKQHTLXOCBJSPDZRAMEWNIUYGV")) := by decide

theorem rotorNew_wf {name : String} {p r : Nat} {R : Rotor}
    (h : Rotor.new name p r = .ok R) : R.WF := by
  unfold Rotor.new at h
  cases htf : RotorName.tryFrom name with
  | error e => rw [htf] at h; cases h
  | ok rn =>
    rw [htf] at h
    cases rn <;>
      (injection h with h; subst h;
       refine ⟨?_, Nat.mod_lt _ (by decide), Nat.mod_lt _ (by decide)⟩) <;>
      first
        | exact tablesWF_I
        | exact tablesWF_II
        | exact tablesWF_III
        | exact tablesWF_IV
        | exact tablesWF_V
        | exact tablesWF_VI
        | exact tablesWF_VII
        | exact tablesWF_VIII

theorem reflectorNew_wf {t : String} {R : Reflector}
    (h : Reflector.new t = .ok R) : R.WF := by
  unfold Reflector.new at h
  split at h <;> first
    | (injection h with h; subst h; decide)
    | cases h

theorem getD_set_self {l : List Nat} {i a d : Nat} (h : i < l.length) :
    (l.set i a).getD i d = a := by
  simp [List.getD_eq_getElem?_getD, List.getElem?_set_self h]

theorem getD_set_ne {l : List Nat} {i j a d : Nat} (h : i ≠ j) :
    (l.set i a).getD j d = l.getD j d := by
  simp [List.getD_eq_getElem?_getD, List.getElem?_set_ne h]

/-- Invariant of the `Plugboard::new` loop: the table built so far is an
involution and fixes every letter that has not been seen. -/
def pbInv (wiring seen : List Nat) : Prop :=
  involutionTable wiring ∧ ∀ x < 26, x ∉ seen → wiring.getD x 0 = x

theorem pbInv_step {w seen : List Nat} {c1 c2 : Nat} (h1 : c1 < 26) (h2 : c2 < 26)
    (hs1 : c1 ∉ seen) (hs2 : c2 ∉ seen) (hinv : pbInv w seen) :
    pbInv ((w.set c1 c2).set c2 c1) (c2 :: c1 :: seen) := by
  obtain ⟨⟨hlen, hlt, hinvol⟩, hfix⟩ := hinv
  have hlen2 : ((w.set c1 c2).set c2 c1).length = 26 := by simp [hlen]
  have hfix1 : w.getD c1 0 = c1 := hfix c1 h1 hs1
  have hfix2 : w.getD c2 0 = c2 := hfix c2 h2 hs2
  have hget : ∀ x, ((w.set c1 c2).set c2 c1).getD x 0 =
      if x = c2 then c1 else if x = c1 then c2 else w.getD x 0 := by
    intro x
    by_cases hx2 : x = c2
    · subst hx2; rw [getD_set_self (by simp [hlen]; omega), if_pos rfl]
    · rw [getD_set_ne (fun h => hx2 h.symm), if_neg hx2]
      by_cases hx1 : x = c1
      · subst hx1; rw [getD_set_self (by omega), if_pos rfl]
      · rw [getD_set_ne (fun h => hx1 h.symm), if_neg hx1]
  have hne : ∀ x, x < 26 → x ≠ c1 → x ≠ c2 → w.getD x 0 ≠ c1 ∧ w.getD x 0 ≠ c2 := by
    intro x hx hx1 hx2
    constructor
    · intro hcontra
      have := hinvol x hx
      rw [hcontra, hfix1] at this
      exact hx1 this.symm
    · intro hcontra
      have := hinvol x hx
      rw [hcontra, hfix2] at this
      exact hx2 this.symm
  refine ⟨⟨hlen2, ?_, ?_⟩, ?_⟩
  · intro i hi
    rw [hget]
    split
    · exact h1
    · split
      · exact h2
      · exact hlt i hi
  · intro i hi
    rw [hget i]
    by_cases hi2 : i = c2
    · rw [if_pos hi2, hget c1]
      by_cases hc : c1 = c2
      · rw [if_pos hc]; omega
      · rw [if_neg hc, if_pos rfl]; omega
    · rw [if_neg hi2]
      by_cases hi1 : i = c1
      · rw [if_pos hi1, hget c2, if_pos rfl]; omega
      · rw [if_neg hi1]
        obtain ⟨hw1, hw2⟩ := hne i hi hi1 hi2
        rw [hget (w.getD i 0), if_neg hw2, if_neg hw1]
        exact hinvol i hi
  · intro x hx hxmem
    have hx2 : x ≠ c2 := fun h => hxmem (h ▸ List.mem_cons_self _ _)
    have hx1 : x ≠ c1 := fun h => hxmem (by simp [h])
    have hxseen : x ∉ seen := fun h => hxmem (by simp [h])
    rw [hget, if_neg hx2, if_neg hx1]
    exact hfix x hx hxseen

theorem pbLoop_wf : ∀ (conns : List String) (seen wiring : List Nat),
    pbInv wiring seen → ∀ {w2 : List Nat},
    pbLoop conns seen wiring = some (.ok w2) → involutionTable w2 := by
  intro conns
  induction conns with
  | nil => intro seen wiring hinv w2 h; injection h with h; injection h with h; exact h ▸ hinv.1
  | cons cp rest ih =>
    intro seen wiring hinv w2 h
    simp only [pbLoop] at h
    split at h
    · injection h with h; cases h
    · split at h
      · injection h with h; cases h
      · split at h
        · rename_i hlenok hdup hrange
          simp only [Bool.or_eq_true, not_or, List.contains, List.elem_eq_mem,
            decide_eq_true_eq] at hdup
          exact ih _ _ (pbInv_step hrange.1 hrange.2 hdup.1 hdup.2 hinv) h
        · cases h

theorem rangeFix : ∀ x < 26, (List.range 26).getD x 0 = x := by decide

theorem plugboardNew_wf {conns : List String} {P : Plugboard}
    (h : Plugboard.new conns = some (.ok P)) : P.WF := by
  unfold Plugboard.new at h
  cases hl : pbLoop conns [] (List.range 26) with
  | none => rw [hl] at h; cases h
  | some r =>
    rw [hl] at h
    cases r with
    | error e => cases h
    | ok w =>
      injection h with h
      injection h with h
      have hw : involutionTable w :=
        pbLoop_wf conns [] (List.range 26)
          ⟨by decide, fun x hx _ => rangeFix x hx⟩ hl
      exact h ▸ hw

/-- Invariant of a well-formed machine: every rotor, the reflector and the
plugboard are well formed. -/
def Enigma.WF (e : Enigma) : Prop :=
  (∀ r ∈ e.rotors, r.WF) ∧ e.reflector.WF ∧ e.plugboard.WF

theorem rotorsFromSpecs_wf : ∀ {specs : List (String × Nat × Nat)} {rs : List Rotor},
    rotorsFromSpecs specs = .ok rs → ∀ r ∈ rs, r.WF := by
  intro specs
  induction specs with
  | nil => intro rs h r hr; injection h with h; subst h; cases hr
  | cons sp rest ih =>
    intro rs h r hr
    obtain ⟨n, p, s⟩ := sp
    unfold rotorsFromSpecs at h
    cases hR : Rotor.new n p s with
    | error e => rw [hR] at h; cases h
    | ok r0 =>
      rw [hR] at h
      cases hrest : rotorsFromSpecs rest with
      | error e => rw [hrest] at h; cases h
      | ok rs0 =>
        rw [hrest] at h
        injection h with h
        subst h
        rcases List.mem_cons.mp hr with hr | hr
        · exact hr ▸ rotorNew_wf hR
        · exact ih hrest r hr

theorem enigmaNew_wf {names : List String} {rings poss : List Nat}
    {rt : String} {pc : List String} {e : Enigma}
    (h : Enigma.new names rings poss rt pc = some (.ok e)) : e.WF := by
  unfold Enigma.new at h
  split at h
  · injection h with h; cases h
  · cases hrs : rotorsFromSpecs ((names.zip (poss.zip rings)).reverse) with
    | error er => rw [hrs] at h; cases h
    | ok rotors =>
      rw [hrs] at h
      cases hrf : Reflector.new rt with
      | error er => rw [hrf] at h; cases h
      | ok reflector =>
        rw [hrf] at h
        cases hpb : Plugboard.new pc with
        | none => rw [hpb] at h; cases h
        | some pr =>
          rw [hpb] at h
          cases pr with
          | error er => cases h
          | ok plugboard =>
            injection h with h
            injection h with h
            subst h
            exact ⟨fun r hr => rotorsFromSpecs_wf hrs r hr,
              reflectorNew_wf hrf, plugboardNew_wf hpb⟩

/-! ## Rotor signal arithmetic -/

theorem clockSub_lt (a b : Nat) : clockSub a b < 26 :=
  Nat.mod_lt _ (by decide)

theorem clockAdd_lt (a b : Nat) : clockAdd a b < 26 :=
  Nat.mod_lt _ (by decide)

theorem rotorForward_lt (r : Rotor) (letter : Nat) : r.forward letter < 26 :=
  clockSub_lt _ _

theorem rotorBackward_lt (r : Rotor) (letter : Nat) : r.backward letter < 26 :=
  clockSub_lt _ _

theorem rotorBackward_forward (r : Rotor) (hr : r.WF) {x : Nat} (hx : x < 26) :
    r.backward (r.forward x) = x := by
  obtain ⟨⟨hlw, hliw, hew, heiw, hinv1, hinv2⟩, hpos, hring⟩ := hr
  unfold Rotor.forward Rotor.backward
  dsimp only
  have ho : clockSub r.position r.ring_setting < 26 := clockSub_lt _ _
  set o := clockSub r.position r.ring_setting with hodef
  have hidx : clockAdd o x < 26 := clockAdd_lt _ _
  set idx := clockAdd o x with hidxdef
  have hwv : r.wiring.getD idx 0 < 26 := hew _ hidx
  set wv := r.wiring.getD idx 0 with hwvdef
  have h1 : clockSub (clockFrom wv) o = (wv + 26 - o) % 26 := by
    unfold clockSub clockFrom MAX_VALUE; omega
  rw [h1]
  have h2 : clockAdd o ((wv + 26 - o) % 26) = wv := by
    unfold clockAdd clockFrom MAX_VALUE; omega
  rw [h2, hwvdef, hinv1 idx hidx]
  have h3 : idx = (o + x) % 26 := by
    rw [hidxdef]; unfold clockAdd clockFrom MAX_VALUE; rfl
  unfold clockSub clockFrom MAX_VALUE
  omega

theorem rotorForward_backward (r : Rotor) (hr : r.WF) {x : Nat} (hx : x < 26) :
    r.forward (r.backward x) = x := by
  obtain ⟨⟨hlw, hliw, hew, heiw, hinv1, hinv2⟩, hpos, hring⟩ := hr
  unfold Rotor.forward Rotor.backward
  dsimp only
  have ho : clockSub r.position r.ring_setting < 26 := clockSub_lt _ _
  set o := clockSub r.position r.ring_setting with hodef
  have hidx : clockAdd o x < 26 := clockAdd_lt _ _
  set idx := clockAdd o x with hidxdef
  have hwv : r.inverse_wiring.getD idx 0 < 26 := heiw _ hidx
  set wv := r.inverse_wiring.getD idx 0 with hwvdef
  have h1 : clockSub (clockFrom wv) o = (wv + 26 - o) % 26 := by
    unfold clockSub clockFrom MAX_VALUE; omega
  rw [h1]
  have h2 : clockAdd o ((wv + 26 - o) % 26) = wv := by
    unfold clockAdd clockFrom MAX_VALUE; omega
  rw [h2, hwvdef, hinv2 idx hidx]
  have h3 : idx = (o + x) % 26 := by
    rw [hidxdef]; unfold clockAdd clockFrom MAX_VALUE; rfl
  unfold clockSub clockFrom MAX_VALUE
  omega

/-! ## Folding the signal through the rotor stack -/

theorem foldl_forward_lt (rs : List Rotor) (x : Nat) (hx : x < 26) :
    rs.foldl (fun acc r => r.forward acc) x < 26 := by
  induction rs generalizing x with
  | nil => exact hx
  | cons r rest ih => exact ih _ (rotorForward_lt r x)

theorem foldl_backward_lt (rs : List Rotor) (x : Nat) (hx : x < 26) :
    rs.foldl (fun acc r => r.backward acc) x < 26 := by
  induction rs generalizing x with
  | nil => exact hx
  | cons r rest ih => exact ih _ (rotorBackward_lt r x)

theorem foldl_backward_foldl_forward (rs : List Rotor) (h : ∀ r ∈ rs, r.WF)
    {x : Nat} (hx : x < 26) :
    rs.reverse.foldl (fun acc r => r.backward acc)
      (rs.foldl (fun acc r => r.forward acc) x) = x := by
  induction rs generalizing x with
  | nil => exact rfl
  | cons r rest ih =>
    rw [List.reverse_cons, List.foldl_append, List.foldl_cons, List.foldl_cons,
      List.foldl_nil]
    rw [ih (fun q hq => h q (List.mem_cons_of_mem _ hq)) (rotorForward_lt r x)]
    exact rotorBackward_forward r (h r (List.mem_cons_self _ _)) hx

theorem foldl_forward_foldl_backward (rs : List Rotor) (h : ∀ r ∈ rs, r.WF)
    {x : Nat} (hx : x < 26) :
    rs.foldl (fun acc r => r.forward acc)
      (rs.reverse.foldl (fun acc r => r.backward acc) x) = x := by
  induction rs generalizing x with
  | nil => exact rfl
  | cons r rest ih =>
    rw [List.reverse_cons, List.foldl_append, List.foldl_cons, List.foldl_cons,
      List.foldl_nil]
    rw [rotorForward_backward r (h r (List.mem_cons_self _ _))
      (foldl_backward_lt _ _ hx)]
    exact ih (fun q hq => h q (List.mem_cons_of_mem _ hq)) hx

/-! ## Properties of the stepping mechanism -/

theorem rotorTurnover_wf {r : Rotor} (h : r.WF) : r.turnover.WF :=
  ⟨h.1, Nat.mod_lt _ (by decide), h.2.2⟩

theorem rotate_nil : rotate [] = none := rfl

theorem rotate_one (a : Rotor) : rotate [a] = some [a.turnover] := rfl

theorem rotate_two (a b : Rotor) :
    rotate [a, b] =
      if b.at_notch then none
      else some [a.turnover, if a.at_notch then b.turnover else b] := by
  unfold rotate
  by_cases hb : b.at_notch
  · simp [hb]
  · by_cases ha : a.at_notch <;> simp [hb, ha]

theorem rotate_cons3 (a b c : Rotor) (rest : List Rotor) :
    rotate (a :: b :: c :: rest) =
      some (if b.at_notch then a.turnover :: b.turnover :: c.turnover :: rest
            else if a.at_notch then a.turnover :: b.turnover :: c :: rest
            else a.turnover :: b :: c :: rest) := by
  unfold rotate
  by_cases hb : b.at_notch
  · simp [hb]
  · by_cases ha : a.at_notch <;> simp [hb, ha]

/-- Any successful rotation permutes positions of the first three rotors only:
every rotor of the result is a rotor of the input or its turnover, lengths
agree, entries from index 3 on are untouched, and all wiring tables are kept. -/
theorem rotate_spec {rs rs2 : List Rotor} (h : rotate rs = some rs2) :
    (∀ r ∈ rs2, r ∈ rs ∨ ∃ q ∈ rs, r = q.turnover) ∧
    rs2.length = rs.length ∧
    (∀ i : Nat, 3 ≤ i → rs2[i]? = rs[i]?) ∧
    (∀ i : Nat, (rs2[i]?).map Rotor.wiring = (rs[i]?).map Rotor.wiring) ∧
    (∀ i : Nat, (rs2[i]?).map Rotor.inverse_wiring = (rs[i]?).map Rotor.inverse_wiring) := by
  match rs with
  | [] => rw [rotate_nil] at h; cases h
  | [a] =>
    rw [rotate_one] at h
    injection h with h
    subst h
    refine ⟨fun r hr => ?_, rfl, fun i hi => ?_, fun i => ?_, fun i => ?_⟩
    · simp only [List.mem_singleton] at hr
      subst hr
      exact Or.inr ⟨a, List.mem_singleton_self a, rfl⟩
    · match i, hi with
      | i + 3, _ => rfl
    · match i with
      | 0 => rfl
      | i + 1 => rfl
    · match i with
      | 0 => rfl
      | i + 1 => rfl
  | [a, b] =>
    rw [rotate_two] at h
    by_cases hb : b.at_notch
    · rw [if_pos hb] at h; cases h
    · rw [if_neg hb] at h
      by_cases ha : a.at_notch <;> [rw [if_pos ha] at h; rw [if_neg ha] at h] <;>
        (injection h with h; subst h;
         refine ⟨fun r hr => ?_, rfl, fun i hi => ?_, fun i => ?_, fun i => ?_⟩)
      · simp only [List.mem_cons, List.not_mem_nil, or_false] at hr
        rcases hr with rfl | rfl
        · exact Or.inr ⟨a, by simp, rfl⟩
        · exact Or.inr ⟨b, by simp, rfl⟩
      · match i, hi with
        | i + 3, _ => rfl
      · match i with
        | 0 => rfl
        | 1 => rfl
        | i + 2 => rfl
      · match i with
        | 0 => rfl
        | 1 => rfl
        | i + 2 => rfl
      · simp only [List.mem_cons, List.not_mem_nil, or_false] at hr
        rcases hr with rfl | rfl
        · exact Or.inr ⟨a, by simp, rfl⟩
        · exact Or.inl (by simp)
      · match i, hi with
        | i + 3, _ => rfl
      · match i with
        | 0 => rfl
        | 1 => rfl
        | i + 2 => rfl
      · match i with
        | 0 => rfl
        | 1 => rfl
        | i + 2 => rfl
  | a :: b :: c :: rest =>
    rw [rotate_cons3] at h
    by_cases hb : b.at_notch
    · rw [if_pos hb] at h
      injection h with h
      subst h
      refine ⟨fun r hr => ?_, rfl, fun i hi => ?_, fun i => ?_, fun i => ?_⟩
      · simp only [List.mem_cons] at hr
        rcases hr with rfl | rfl | rfl | hr
        · exact Or.inr ⟨a, by simp, rfl⟩
        · exact Or.inr ⟨b, by simp, rfl⟩
        · exact Or.inr ⟨c, by simp, rfl⟩
        · exact Or.inl (by simp [hr])
      · match i, hi with
        | i + 3, _ => rfl
      · match i with
        | 0 => rfl
        | 1 => rfl
        | 2 => simp [Rotor.turnover]
        | i + 3 => rfl
      · match i with
        | 0 => rfl
        | 1 => rfl
        | 2 => simp [Rotor.turnover]
        | i + 3 => rfl
    · rw [if_neg hb] at h
      by_cases ha : a.at_notch <;> [rw [if_pos ha] at h; rw [if_neg ha] at h] <;>
        (injection h with h; subst h;
         refine ⟨fun r hr => ?_, rfl, fun i hi => ?_, fun i => ?_, fun i => ?_⟩)
      · simp only [List.mem_cons] at hr
        rcases hr with rfl | rfl | hr
        · exact Or.inr ⟨a, by simp, rfl⟩
        · exact Or.inr ⟨b, by simp, rfl⟩
        · exact Or.inl (by simp [hr])
      · match i, hi with
        | i + 3, _ => rfl
      · match i with
        | 0 => rfl
        | 1 => rfl
        | 2 => rfl
        | i + 3 => rfl
      · match i with
        | 0 => rfl
        | 1 => rfl
        | 2 => rfl
        | i + 3 => rfl
      · simp only [List.mem_cons] at hr
        rcases hr with rfl | hr
        · exact Or.inr ⟨a, by simp, rfl⟩
        · exact Or.inl (by simp [hr])
      · match i, hi with
        | i + 3, _ => rfl
      · match i with
        | 0 => rfl
        | 1 => rfl
        | 2 => rfl
        | i + 3 => rfl
      · match i with
        | 0 => rfl
        | 1 => rfl
        | 2 => rfl
        | i + 3 => rfl

theorem rotate_wf {rs rs2 : List Rotor} (hwf : ∀ r ∈ rs, r.WF)
    (h : rotate rs = some rs2) : ∀ r ∈ rs2, r.WF := by
  intro r hr
  rcases (rotate_spec h).1 r hr with hmem | ⟨q, hq, rfl⟩
  · exact hwf r hmem
  · exact rotorTurnover_wf (hwf q hq)

/-! ## The per-character transform is an involution -/

theorem involutionTable_getD_lt {w : List Nat} (hw : involutionTable w)
    (x : Nat) : w.getD x 0 < 26 := by
  by_cases hx : x < 26
  · exact hw.2.1 x hx
  · have hlen : w.length ≤ x := by rw [hw.1]; omega
    rw [List.getD_eq_getElem?_getD, List.getElem?_eq_none hlen]
    decide

theorem plugForward_lt {p : Plugboard} (hp : p.WF) (x : Nat) :
    p.forward x < 26 := involutionTable_getD_lt hp x

theorem plugBackward_lt {p : Plugboard} (hp : p.WF) (x : Nat) :
    p.backward x < 26 := involutionTable_getD_lt hp x

theorem reflForward_lt {r : Reflector} (hr : r.WF) (x : Nat) :
    r.forward x < 26 := involutionTable_getD_lt hr x

theorem plugForward_backward {p : Plugboard} (hp : p.WF) {x : Nat}
    (hx : x < 26) : p.forward (p.backward x) = x := hp.2.2 x hx

theorem plugBackward_forward {p : Plugboard} (hp : p.WF) {x : Nat}
    (hx : x < 26) : p.backward (p.forward x) = x := hp.2.2 x hx

theorem reflForward_forward {r : Reflector} (hr : r.WF) {x : Nat}
    (hx : x < 26) : r.forward (r.forward x) = x := hr.2.2 x hx

/-- One enciphered character behaves reciprocally: the output symbol is in
range, the rotated machine is well formed with reflector and plugboard
untouched, and feeding the output back into the same starting machine yields
the input symbol with the same final state. -/
theorem encrypt_single_spec {e : Enigma} (he : e.WF) {x : Nat} (hx : x < 26)
    {y : Nat} {e2 : Enigma} (h : encrypt_single e x = some (y, e2)) :
    y < 26 ∧ e2.WF ∧ e2.reflector = e.reflector ∧ e2.plugboard = e.plugboard ∧
      encrypt_single e y = some (x, e2) := by
  obtain ⟨hrwf, hfwf, hpwf⟩ := he
  unfold encrypt_single at h ⊢
  cases hrot : rotate e.rotors with
  | none => rw [hrot] at h; exact Option.noConfusion h
  | some rs =>
    rw [hrot] at h
    dsimp only at h ⊢
    injection h with h
    rw [Prod.mk.injEq] at h
    obtain ⟨rfl, rfl⟩ := h
    have hrswf : ∀ r ∈ rs, r.WF := rotate_wf hrwf hrot
    have ho1 : e.plugboard.forward x < 26 := plugForward_lt hpwf x
    have hv1 : rs.foldl (fun acc r => r.forward acc) (e.plugboard.forward x) < 26 :=
      foldl_forward_lt _ _ ho1
    have hw1 : e.reflector.forward
        (rs.foldl (fun acc r => r.forward acc) (e.plugboard.forward x)) < 26 :=
      reflForward_lt hfwf _
    have hb1 : rs.reverse.foldl (fun acc r => r.backward acc)
        (e.reflector.forward
          (rs.foldl (fun acc r => r.forward acc) (e.plugboard.forward x))) < 26 :=
      foldl_backward_lt _ _ hw1
    refine ⟨plugBackward_lt hpwf _, ⟨hrswf, hfwf, hpwf⟩, rfl, rfl, ?_⟩
    rw [show ∀ z, Reflector.backward e.reflector z = z from fun z => rfl]
    rw [show ∀ z, Reflector.backward e.reflector z = z from fun z => rfl]
    rw [plugForward_backward hpwf hb1]
    rw [foldl_forward_foldl_backward rs hrswf hw1]
    rw [reflForward_forward hfwf hv1]
    rw [foldl_backward_foldl_forward rs hrswf ho1]
    rw [plugBackward_forward hpwf hx]

/-! ## Message-level lemmas -/

theorem encryptBytes_roundtrip : ∀ (msg : List Nat) (e : Enigma), e.WF →
    (∀ b ∈ msg, 97 ≤ b ∧ b ≤ 122) → ∀ {out : List Nat} {e1 : Enigma},
    encryptBytes e msg = some (out, e1) →
    (∀ b ∈ out, 97 ≤ b ∧ b ≤ 122) ∧ encryptBytes e out = some (msg, e1) := by
  intro msg
  induction msg with
  | nil =>
    intro e hwf hm out e1 h
    injection h with h
    rw [Prod.mk.injEq] at h
    obtain ⟨rfl, rfl⟩ := h
    exact ⟨by simp, rfl⟩
  | cons b rest ih =>
    intro e hwf hm out e1 h
    have hb : 97 ≤ b ∧ b ≤ 122 := hm b (List.mem_cons_self _ _)
    unfold encryptBytes at h
    rw [if_pos hb] at h
    cases hes : encrypt_single e (b - 97) with
    | none => rw [hes] at h; exact Option.noConfusion h
    | some ce2 =>
      obtain ⟨c, e2⟩ := ce2
      rw [hes] at h
      dsimp only at h
      cases hrec : encryptBytes e2 rest with
      | none => rw [hrec] at h; exact Option.noConfusion h
      | some oe3 =>
        obtain ⟨out2, e3⟩ := oe3
        rw [hrec] at h
        dsimp only at h
        injection h with h
        rw [Prod.mk.injEq] at h
        obtain ⟨rfl, rfl⟩ := h
        have hxlt : b - 97 < 26 := by omega
        obtain ⟨hclt, he2wf, _, _, hback⟩ := encrypt_single_spec hwf hxlt hes
        obtain ⟨hout2, hrec2⟩ :=
          ih e2 he2wf (fun q hq => hm q (List.mem_cons_of_mem _ hq)) hrec
        constructor
        · intro q hq
          rcases List.mem_cons.mp hq with rfl | hq
          · omega
          · exact hout2 q hq
        · unfold encryptBytes
          rw [if_pos (by omega : 97 ≤ c + 97 ∧ c + 97 ≤ 122)]
          rw [show c + 97 - 97 = c from by omega, hback]
          dsimp only
          rw [hrec2]
          dsimp only
          rw [show b - 97 + 97 = b from by omega]

theorem map_asciiToLower_of_lower : ∀ {m : List Nat},
    (∀ b ∈ m, 97 ≤ b ∧ b ≤ 122) → m.map asciiToLower = m := by
  intro m
  induction m with
  | nil => intro _; rfl
  | cons b rest ih =>
    intro hm
    have hb : 97 ≤ b ∧ b ≤ 122 := hm b (List.mem_cons_self _ _)
    have hum : asciiToLower b = b := by unfold asciiToLower; rw [if_neg (by omega)]
    rw [List.map_cons, hum, ih (fun q hq => hm q (List.mem_cons_of_mem _ hq))]

/-- An ASCII byte that denotes a letter (upper or lower case): exactly the
bytes that enter the signal path of `Enigma::encrypt`. -/
def isAlphaByte (b : Nat) : Bool :=
  (decide (65 ≤ b) && decide (b ≤ 90)) || (decide (97 ≤ b) && decide (b ≤ 122))

theorem alpha_lower (b : Nat) :
    (97 ≤ asciiToLower b ∧ asciiToLower b ≤ 122) ↔ isAlphaByte b = true := by
  unfold asciiToLower isAlphaByte
  by_cases h : 65 ≤ b ∧ b ≤ 90
  · rw [if_pos h]
    simp only [Bool.or_eq_true, Bool.and_eq_true, decide_eq_true_eq]
    omega
  · rw [if_neg h]
    simp only [Bool.or_eq_true, Bool.and_eq_true, decide_eq_true_eq]
    omega

theorem not_alpha_lower {b : Nat} (h : isAlphaByte b = false) :
    asciiToLower b = b ∧ ¬(97 ≤ b ∧ b ≤ 122) := by
  unfold isAlphaByte at h
  simp only [Bool.or_eq_false_iff, Bool.and_eq_false_iff, decide_eq_false_iff_not] at h
  unfold asciiToLower
  rw [if_neg (by omega)]
  omega

/-- Definitional step equation of the byte loop on a cons cell. -/
theorem encryptBytes_cons (e : Enigma) (b : Nat) (rest : List Nat) :
    encryptBytes e (b :: rest) =
      if 97 ≤ b ∧ b ≤ 122 then
        match encrypt_single e (b - 97) with
        | none => none
        | some (c, e2) =>
          match encryptBytes e2 rest with
          | none => none
          | some (out, e3) => some ((c + 97) :: out, e3)
      else
        match encryptBytes e rest with
        | none => none
        | some (out, e2) => some (b :: out, e2) := rfl

/-- Pass-through behaviour of the byte loop: the final machine state is the
one obtained from the alphabetic bytes alone, and whenever the loop completes,
the output has the length of the input with every non-alphabetic byte
reproduced unchanged at its own position. -/
theorem encB_passthrough : ∀ (msg : List Nat) (e : Enigma),
    ((encryptBytes e (msg.map asciiToLower)).map Prod.snd =
      (encryptBytes e ((msg.filter isAlphaByte).map asciiToLower)).map Prod.snd) ∧
    (∀ out e1, encryptBytes e (msg.map asciiToLower) = some (out, e1) →
      out.length = msg.length ∧
      ∀ (i b : Nat), msg[i]? = some b → isAlphaByte b = false → out[i]? = some b) := by
  intro msg
  induction msg with
  | nil =>
    intro e
    refine ⟨rfl, fun out e1 h => ?_⟩
    injection h with h
    rw [Prod.mk.injEq] at h
    obtain ⟨rfl, rfl⟩ := h
    exact ⟨rfl, fun i b hib _ => by cases hib⟩
  | cons b rest ih =>
    intro e
    by_cases hab : isAlphaByte b = true
    · have hcond : 97 ≤ asciiToLower b ∧ asciiToLower b ≤ 122 := (alpha_lower b).mpr hab
      have hfil : (b :: rest).filter isAlphaByte = b :: rest.filter isAlphaByte := by
        simp [List.filter_cons, hab]
      rw [hfil]
      simp only [List.map_cons]
      constructor
      · unfold encryptBytes
        rw [if_pos hcond, if_pos hcond]
        cases hes : encrypt_single e (asciiToLower b - 97) with
        | none => rfl
        | some ce2 =>
          obtain ⟨c, e2⟩ := ce2
          dsimp only
          have ihs := (ih e2).1
          cases h1 : encryptBytes e2 (rest.map asciiToLower) with
          | none =>
            rw [h1] at ihs
            cases h2 : encryptBytes e2 ((rest.filter isAlphaByte).map asciiToLower) with
            | none => rfl
            | some p2 => rw [h2] at ihs; cases ihs
          | some p1 =>
            rw [h1] at ihs
            cases h2 : encryptBytes e2 ((rest.filter isAlphaByte).map asciiToLower) with
            | none => rw [h2] at ihs; cases ihs
            | some p2 =>
              rw [h2] at ihs
              obtain ⟨o1, e3⟩ := p1
              obtain ⟨o2, e4⟩ := p2
              injection ihs with ihs
              dsimp only
              dsimp only at ihs
              rw [ihs]
              rfl
      · intro out e1 h
        unfold encryptBytes at h
        rw [if_pos hcond] at h
        cases hes : encrypt_single e (asciiToLower b - 97) with
        | none => rw [hes] at h; exact Option.noConfusion h
        | some ce2 =>
          obtain ⟨c, e2⟩ := ce2
          rw [hes] at h
          dsimp only at h
          cases h1 : encryptBytes e2 (rest.map asciiToLower) with
          | none => rw [h1] at h; exact Option.noConfusion h
          | some p1 =>
            obtain ⟨o1, e3⟩ := p1
            rw [h1] at h
            dsimp only at h
            injection h with h
            rw [Prod.mk.injEq] at h
            obtain ⟨rfl, rfl⟩ := h
            obtain ⟨hlen, hpos⟩ := (ih e2).2 o1 e3 h1
            refine ⟨by simp [hlen], ?_⟩
            intro i q hib hnal
            match i with
            | 0 =>
              rw [List.getElem?_cons_zero] at hib
              injection hib with hib
              subst hib
              rw [hab] at hnal
              cases hnal
            | i + 1 =>
              rw [List.getElem?_cons_succ] at hib
              rw [List.getElem?_cons_succ]
              exact hpos i q hib hnal
    · have hab2 : isAlphaByte b = false := by
        cases hb : isAlphaByte b
        · rfl
        · exact absurd hb hab
      obtain ⟨hlow, hncond⟩ := not_alpha_lower hab2
      have hfil : (b :: rest).filter isAlphaByte = rest.filter isAlphaByte := by
        simp [List.filter_cons, hab2]
      rw [hfil]
      simp only [List.map_cons, hlow]
      constructor
      · rw [encryptBytes_cons, if_neg hncond]
        have ihs := (ih e).1
        cases h1 : encryptBytes e (rest.map asciiToLower) with
        | none =>
          rw [h1] at ihs
          dsimp only at ihs ⊢
          exact ihs
        | some p1 =>
          obtain ⟨o1, e3⟩ := p1
          rw [h1] at ihs
          dsimp only at ihs ⊢
          exact ihs
      · intro out e1 h
        unfold encryptBytes at h
        rw [if_neg hncond] at h
        cases h1 : encryptBytes e (rest.map asciiToLower) with
        | none => rw [h1] at h; exact Option.noConfusion h
        | some p1 =>
          obtain ⟨o1, e3⟩ := p1
          rw [h1] at h
          dsimp only at h
          injection h with h
          rw [Prod.mk.injEq] at h
          obtain ⟨rfl, rfl⟩ := h
          obtain ⟨hlen, hpos⟩ := (ih e).2 o1 e3 h1
          refine ⟨by simp [hlen], ?_⟩
          intro i q hib hnal
          match i with
          | 0 =>
            rw [List.getElem?_cons_zero] at hib
            injection hib with hib
            subst hib
            rw [List.getElem?_cons_zero]
          | i + 1 =>
            rw [List.getElem?_cons_succ] at hib
            rw [List.getElem?_cons_succ]
            exact hpos i q hib hnal

/-! ## Frame preservation for rotors beyond index 2 -/

/-- Relation between rotor stacks before and after some encryption activity:
equal length, identical entries from index 3 on, identical wiring tables at
every index. -/
def framePres (old upd : List Rotor) : Prop :=
  upd.length = old.length ∧
  (∀ i : Nat, 3 ≤ i → upd[i]? = old[i]?) ∧
  (∀ i : Nat, (upd[i]?).map Rotor.wiring = (old[i]?).map Rotor.wiring) ∧
  (∀ i : Nat, (upd[i]?).map Rotor.inverse_wiring = (old[i]?).map Rotor.inverse_wiring)

theorem framePres_refl (rs : List Rotor) : framePres rs rs :=
  ⟨rfl, fun _ _ => rfl, fun _ => rfl, fun _ => rfl⟩

theorem framePres_trans {a b c : List Rotor} (h1 : framePres a b)
    (h2 : framePres b c) : framePres a c :=
  ⟨h2.1.trans h1.1, fun i hi => (h2.2.1 i hi).trans (h1.2.1 i hi),
    fun i => (h2.2.2.1 i).trans (h1.2.2.1 i),
    fun i => (h2.2.2.2 i).trans (h1.2.2.2 i)⟩

theorem rotate_framePres {rs rs2 : List Rotor} (h : rotate rs = some rs2) :
    framePres rs rs2 :=
  ⟨(rotate_spec h).2.1, (rotate_spec h).2.2.1, (rotate_spec h).2.2.2.1,
    (rotate_spec h).2.2.2.2⟩

theorem encrypt_single_frame {e : Enigma} {x y : Nat} {e2 : Enigma}
    (h : encrypt_single e x = some (y, e2)) :
    framePres e.rotors e2.rotors ∧ e2.reflector = e.reflector ∧
      e2.plugboard = e.plugboard := by
  unfold encrypt_single at h
  cases hrot : rotate e.rotors with
  | none => rw [hrot] at h; exact Option.noConfusion h
  | some rs =>
    rw [hrot] at h
    dsimp only at h
    injection h with h
    rw [Prod.mk.injEq] at h
    obtain ⟨rfl, rfl⟩ := h
    exact ⟨rotate_framePres hrot, rfl, rfl⟩

theorem encryptBytes_frame : ∀ (msg : List Nat) (e : Enigma) {out : List Nat}
    {e1 : Enigma}, encryptBytes e msg = some (out, e1) →
    framePres e.rotors e1.rotors ∧ e1.reflector = e.reflector ∧
      e1.plugboard = e.plugboard := by
  intro msg
  induction msg with
  | nil =>
    intro e out e1 h
    injection h with h
    rw [Prod.mk.injEq] at h
    obtain ⟨rfl, rfl⟩ := h
    exact ⟨framePres_refl _, rfl, rfl⟩
  | cons b rest ih =>
    intro e out e1 h
    rw [encryptBytes_cons] at h
    by_cases hcond : 97 ≤ b ∧ b ≤ 122
    · rw [if_pos hcond] at h
      cases hes : encrypt_single e (b - 97) with
      | none => rw [hes] at h; exact Option.noConfusion h
      | some ce2 =>
        obtain ⟨c, e2⟩ := ce2
        rw [hes] at h
        dsimp only at h
        cases h1 : encryptBytes e2 rest with
        | none => rw [h1] at h; exact Option.noConfusion h
        | some p1 =>
          obtain ⟨o1, e3⟩ := p1
          rw [h1] at h
          dsimp only at h
          injection h with h
          rw [Prod.mk.injEq] at h
          obtain ⟨rfl, rfl⟩ := h
          obtain ⟨hf1, hr1, hp1⟩ := encrypt_single_frame hes
          obtain ⟨hf2, hr2, hp2⟩ := ih e2 h1
          exact ⟨framePres_trans hf1 hf2, hr2.trans hr1, hp2.trans hp1⟩
    · rw [if_neg hcond] at h
      cases h1 : encryptBytes e rest with
      | none => rw [h1] at h; exact Option.noConfusion h
      | some p1 =>
        obtain ⟨o1, e3⟩ := p1
        rw [h1] at h
        dsimp only at h
        injection h with h
        rw [Prod.mk.injEq] at h
        obtain ⟨rfl, rfl⟩ := h
        exact ih e h1

/-! ## Which message each construction error carries -/

theorem strAppendData (s t : String) : (s ++ t).data = s.data ++ t.data := by
  cases s; cases t; rfl

theorem rotorNameTryFrom_error {s e : String}
    (h : RotorName.tryFrom s = .error e) : e = rotorNameMsg := by
  unfold RotorName.tryFrom at h
  split at h <;> first
    | exact (Except.error.inj h).symm
    | cases h

theorem rotorNew_error {n : String} {p r : Nat} {e : String}
    (h : Rotor.new n p r = .error e) : e = rotorNameMsg := by
  unfold Rotor.new at h
  cases htf : RotorName.tryFrom n with
  | error e2 =>
    rw [htf] at h
    injection h with h
    exact h ▸ rotorNameTryFrom_error htf
  | ok rn => rw [htf] at h; cases rn <;> cases h

theorem reflectorNew_error {t e : String} (h : Reflector.new t = .error e) :
    e = "Invalid reflector type, " ++ t := by
  unfold Reflector.new at h
  split at h <;> first
    | exact (Except.error.inj h).symm
    | cases h

theorem rotorsFromSpecs_error : ∀ {specs : List (String × Nat × Nat)} {msg : String},
    rotorsFromSpecs specs = .error msg → msg = rotorNameMsg := by
  intro specs
  induction specs with
  | nil => intro msg h; cases h
  | cons sp rest ih =>
    intro msg h
    obtain ⟨n, p, s⟩ := sp
    unfold rotorsFromSpecs at h
    cases hR : Rotor.new n p s with
    | error e =>
      rw [hR] at h
      injection h with h
      exact h ▸ rotorNew_error hR
    | ok r0 =>
      rw [hR] at h
      cases hrest : rotorsFromSpecs rest with
      | error e =>
        rw [hrest] at h
        injection h with h
        exact h ▸ ih hrest
      | ok rs0 => rw [hrest] at h; cases h

theorem pbLoop_error : ∀ {conns : List String} {seen wiring : List Nat} {msg : String},
    pbLoop conns seen wiring = some (.error msg) →
    (∃ cp, msg = pairMsg cp) ∨ ∃ a b, msg = dupMsg a b := by
  intro conns
  induction conns with
  | nil => intro seen wiring msg h; injection h with h; cases h
  | cons cp rest ih =>
    intro seen wiring msg h
    simp only [pbLoop] at h
    split at h
    · injection h with h
      injection h with h
      exact Or.inl ⟨cp, h.symm⟩
    · split at h
      · injection h with h
        injection h with h
        exact Or.inr ⟨_, _, h.symm⟩
      · split at h
        · exact ih h
        · cases h

theorem countMsg_head : countMsg.data.headD ' ' = 'R' := rfl

theorem rotorNameMsg_ne_countMsg : rotorNameMsg ≠ countMsg := by decide

theorem reflMsg_ne_countMsg (t : String) :
    ("Invalid reflector type, " ++ t) ≠ countMsg := by
  intro h
  have hd := congrArg String.data h
  rw [strAppendData] at hd
  have h0 : ("Invalid reflector type, ".data ++ t.data).headD ' ' =
      countMsg.data.headD ' ' := by rw [hd]
  have h1 : ('I' : Char) = 'R' := h0
  exact absurd h1 (by decide)

theorem pairMsg_ne_countMsg (cp : String) : pairMsg cp ≠ countMsg := by
  intro h
  have hd := congrArg String.data h
  unfold pairMsg at hd
  rw [strAppendData, strAppendData] at hd
  have h0 : (("plugboard connections ".data ++ cp.data) ++ " not a pair".data).headD ' ' =
      countMsg.data.headD ' ' := by rw [hd]
  have h1 : ('p' : Char) = 'R' := h0
  exact absurd h1 (by decide)

theorem dupMsg_ne_countMsg (a b : Nat) : dupMsg a b ≠ countMsg := by
  intro h
  have hd := congrArg String.data h
  unfold dupMsg at hd
  rw [strAppendData, strAppendData, strAppendData, strAppendData] at hd
  have h0 : (((("Invalid connections. ".data ++ (toString a).data) ++ " or ".data) ++
      (toString b).data) ++ " is duplicated.".data).headD ' ' =
      countMsg.data.headD ' ' := by rw [hd]
  have h1 : ('I' : Char) = 'R' := h0
  exact absurd h1 (by decide)

/-- The rotor-count error message is produced exactly for mismatched or
too-short configuration vectors. -/
theorem enigmaNew_countMsg_iff (names : List String) (rings poss : List Nat)
    (rt : String) (pc : List String) :
    Enigma.new names rings poss rt pc = some (.error countMsg) ↔
      (names.length ≠ rings.length ∨ names.length ≠ poss.length ∨
        names.length ≤ 1) := by
  constructor
  · intro h
    by_contra hnot
    push_neg at hnot
    obtain ⟨h1, h2, h3⟩ := hnot
    unfold Enigma.new at h
    rw [if_neg (by push_neg; exact ⟨h1, h2, h3⟩)] at h
    cases hrs : rotorsFromSpecs ((names.zip (poss.zip rings)).reverse) with
    | error e =>
      rw [hrs] at h
      injection h with h
      injection h with h
      exact rotorNameMsg_ne_countMsg (rotorsFromSpecs_error hrs ▸ h)
    | ok rotors =>
      rw [hrs] at h
      cases hrf : Reflector.new rt with
      | error e =>
        rw [hrf] at h
        injection h with h
        injection h with h
        exact reflMsg_ne_countMsg rt (reflectorNew_error hrf ▸ h)
      | ok reflector =>
        rw [hrf] at h
        cases hpb : Plugboard.new pc with
        | none => rw [hpb] at h; exact Option.noConfusion h
        | some pr =>
          rw [hpb] at h
          cases pr with
          | error e =>
            injection h with h
            injection h with h
            unfold Plugboard.new at hpb
            cases hpl : pbLoop pc [] (List.range 26) with
            | none => rw [hpl] at hpb; cases hpb
            | some plr =>
              rw [hpl] at hpb
              cases plr with
              | error e2 =>
                injection hpb with hpb
                injection hpb with hpb
                subst hpb
                rcases pbLoop_error hpl with ⟨cp, rfl⟩ | ⟨a, b, rfl⟩
                · exact pairMsg_ne_countMsg cp h
                · exact dupMsg_ne_countMsg a b h
              | ok w => cases hpb
          | ok plugboard => injection h with h; cases h
  · intro h
    unfold Enigma.new
    rw [if_pos h]

/-! ## The claims -/

/-- Round trip through two freshly constructed machines of the crate's test
configuration. -/
def roundTripStd (m : List Nat) : Option (List Nat) :=
  match Enigma.encrypt stdEnigma m with
  | none => none
  | some (c, _) =>
    match Enigma.encrypt stdEnigma c with
    | none => none
    | some (p, _) => some p

/-- Claim C1, counterexample: encrypting the alphabetic plaintext "A"
(byte 65) on a fresh machine and re-encrypting the result on a second fresh
machine returns "a" (byte 97), not the original plaintext: the engine folds
the message to lower case, so the round trip is not the identity on
uppercase input. -/
theorem c1_counterexample :
    roundTripStd [65] = some [97] ∧ roundTripStd [65] ≠ some [65] :=
  ⟨rfl, by decide⟩

/-- Claim C1 (amended): for every successfully constructed machine and every
message of lowercase alphabetic bytes, if the first encryption completes,
then encrypting the resulting ciphertext on a second freshly constructed
machine with the same configuration completes and reproduces the plaintext
exactly. -/
theorem c1_reciprocity_lowercase (rotor_names : List String)
    (ring_settings rotor_positions : List Nat) (reflector_type : String)
    (plugboard_connections : List String) (e : Enigma)
    (hnew : Enigma.new rotor_names ring_settings rotor_positions reflector_type
      plugboard_connections = some (Except.ok e))
    (m : List Nat) (hm : ∀ b ∈ m, 97 ≤ b ∧ b ≤ 122)
    (c : List Nat) (e1 : Enigma) (henc : Enigma.encrypt e m = some (c, e1)) :
    (Enigma.encrypt e c).map Prod.fst = some m := by
  have hwf := enigmaNew_wf hnew
  unfold Enigma.encrypt at henc ⊢
  rw [map_asciiToLower_of_lower hm] at henc
  obtain ⟨hcl, hback⟩ := encryptBytes_roundtrip m e hwf hm henc
  rw [map_asciiToLower_of_lower hcl, hback]
  rfl

/-- The machine state after the crate's "aaaaa" test encryption. -/
def stdEnigmaAfter : Enigma :=
  match Enigma.encrypt stdEnigma [97, 97, 97, 97, 97] with
  | some (_, e) => e
  | none => default

/-- Claim C1, witness: the amended reciprocity at the test configuration on
the message "aaaaa", whose ciphertext is "ewtyx". -/
theorem c1_witness :
    (Enigma.encrypt stdEnigma [101, 119, 116, 121, 120]).map Prod.fst =
      some [97, 97, 97, 97, 97] :=
  c1_reciprocity_lowercase ["I", "II", "III"] [1, 1, 1] [0, 0, 0] "b" []
    stdEnigma rfl [97, 97, 97, 97, 97] (by decide)
    [101, 119, 116, 121, 120] stdEnigmaAfter rfl

/-- Claim C2: the `Machine` engine of machine.rs at configuration rotors
I,II,III, ring settings 1,1,1, positions 0,0,0, reflector B, empty plugboard
encrypts "AAAAA" to "EWTYX", "HELLOXWORLD" to "LOFUHZZLZOM" and the empty
message to the empty message, freshly constructed for each message. -/
theorem c2_concrete_vectors :
    MV.stdMachineOut "AAAAA".data = some "EWTYX".data ∧
    MV.stdMachineOut "HELLOXWORLD".data = some "LOFUHZZLZOM".data ∧
    MV.stdMachineOut "".data = some "".data :=
  ⟨by decide, by decide, rfl⟩

/-- Claim C3: one stepping round, with all notch tests evaluated on the
positions before any stepping.  With the rotor list stored right to left,
index 0 is the rightmost rotor, index 1 the middle one, index 2 the one to
its left: if the middle rotor is at a notch it advances together with the
rotor to its left; otherwise, if the rightmost rotor is at a notch, the
middle rotor advances; the rightmost rotor always advances, mod 26. -/
theorem c3_double_step (rs : List Rotor) (r0 r1 r2 : Rotor)
    (h0 : rs[0]? = some r0) (h1 : rs[1]? = some r1) (h2 : rs[2]? = some r2) :
    ((rotate rs).bind (fun l => l[0]?)).map Rotor.position =
        some ((r0.position + 1) % 26) ∧
    ((rotate rs).bind (fun l => l[1]?)).map Rotor.position =
        some (if r1.at_notch then (r1.position + 1) % 26
              else if r0.at_notch then (r1.position + 1) % 26
              else r1.position) ∧
    ((rotate rs).bind (fun l => l[2]?)).map Rotor.position =
        some (if r1.at_notch then (r2.position + 1) % 26 else r2.position) := by
  match rs with
  | [] => cases h0
  | [a] => cases h1
  | [a, b] => cases h2
  | a :: b :: c :: rest =>
    rw [List.getElem?_cons_zero] at h0
    rw [List.getElem?_cons_succ, List.getElem?_cons_zero] at h1
    rw [List.getElem?_cons_succ, List.getElem?_cons_succ,
      List.getElem?_cons_zero] at h2
    injection h0 with h0
    injection h1 with h1
    injection h2 with h2
    subst h0; subst h1; subst h2
    rw [rotate_cons3]
    by_cases hb : b.at_notch
    · rw [if_pos hb, if_pos hb, if_pos hb]
      refine ⟨rfl, rfl, ?_⟩
      simp [Rotor.turnover, MAX_VALUE]
    · rw [if_neg hb, if_neg hb, if_neg hb]
      by_cases ha : a.at_notch
      · rw [if_pos ha, if_pos ha]
        refine ⟨rfl, rfl, ?_⟩
        simp
      · rw [if_neg ha, if_neg ha]
        refine ⟨rfl, rfl, ?_⟩
        simp

/-- Rotor at a given index of the test machine. -/
def stdRotor (i : Nat) : Rotor := stdEnigma.rotors.getD i default

/-- Claim C3, witness: the stepping equations evaluated on the freshly set up
test machine, whose three rotors sit at position 0 and away from any notch:
only the rightmost rotor moves, to position 1. -/
theorem c3_witness :
    ((rotate stdEnigma.rotors).bind (fun l => l[0]?)).map Rotor.position = some 1 ∧
    ((rotate stdEnigma.rotors).bind (fun l => l[1]?)).map Rotor.position = some 0 ∧
    ((rotate stdEnigma.rotors).bind (fun l => l[2]?)).map Rotor.position = some 0 := by
  obtain ⟨g0, g1, g2⟩ := c3_double_step stdEnigma.rotors
    (stdRotor 0) (stdRotor 1) (stdRotor 2) rfl rfl rfl
  rw [if_neg (by decide), if_neg (by decide)] at g1
  rw [if_neg (by decide)] at g2
  exact ⟨g0, g1, g2⟩

/-- A machine that the constructor accepts with only two rotors, the middle
one starting on its notch. -/
def twoRotorEnigma : Enigma :=
  match Enigma.new ["I", "I"] [1, 1] [16, 0] "b" [] with
  | some (.ok e) => e
  | _ => default

/-- Claim C4: construction accepts the two-rotor configuration, yet
encrypting a single letter panics — the stepping code indexes `rotors[2]`
when the middle rotor is at its notch, out of bounds for two rotors. -/
theorem c4_two_rotor_panic :
    Enigma.new ["I", "I"] [1, 1] [16, 0] "b" [] =
      some (Except.ok twoRotorEnigma) ∧
    Enigma.encrypt twoRotorEnigma [97] = none :=
  ⟨rfl, rfl⟩

/-- Claim C5, counterexample: the `Machine` engine of machine.rs drops
non-alphabetic characters instead of passing them through — encrypting a
single space yields the empty output, so the space does not appear unchanged
at its position. -/
theorem c5_counterexample :
    MV.stdMachineOut " ".data = some [] ∧
    MV.stdMachineOut " ".data ≠ some [' '] :=
  ⟨rfl, by decide⟩

/-- Claim C5 (amended, for the `Enigma` engine of lib.rs): on every machine
and every message, the final machine state equals the state reached on the
alphabetic characters alone (non-alphabetic characters trigger no stepping),
and whenever encryption completes, the output has the length of the message
with every non-alphabetic byte unchanged at its own position. -/
theorem c5_passthrough (e : Enigma) (msg : List Nat) :
    ((Enigma.encrypt e msg).map Prod.snd =
      (Enigma.encrypt e (msg.filter isAlphaByte)).map Prod.snd) ∧
    (∀ out e1, Enigma.encrypt e msg = some (out, e1) →
      out.length = msg.length ∧
      ∀ (i b : Nat), msg[i]? = some b → isAlphaByte b = false →
        out[i]? = some b) :=
  encB_passthrough msg e

/-- Output bytes of the test machine on "a b". -/
def c5out : List Nat :=
  match Enigma.encrypt stdEnigma [97, 32, 98] with
  | some (o, _) => o
  | none => []

/-- Machine state of the test machine after "a b". -/
def c5after : Enigma :=
  match Enigma.encrypt stdEnigma [97, 32, 98] with
  | some (_, e) => e
  | none => default

/-- Claim C5, witness: on the message "a b" the state equals the state
reached on "ab", the output has length 3 and keeps the space (byte 32) at
position 1. -/
theorem c5_witness :
    ((Enigma.encrypt stdEnigma [97, 32, 98]).map Prod.snd =
      (Enigma.encrypt stdEnigma ([97, 32, 98].filter isAlphaByte)).map Prod.snd) ∧
    c5out.length = 3 ∧ c5out[1]? = some 32 := by
  obtain ⟨h1, h2⟩ := c5_passthrough stdEnigma [97, 32, 98]
  obtain ⟨hlen, hpos⟩ := h2 c5out c5after rfl
  exact ⟨h1, hlen, hpos 1 32 rfl rfl⟩

/-- Claim C6: every successfully constructed rotor, at any supplied position
and ring setting, satisfies `backward (forward x) = x` on every symbol
x below 26. -/
theorem c6_backward_forward (name : String) (p r : Nat) (R : Rotor)
    (h : Rotor.new name p r = Except.ok R) (x : Nat) (hx : x < 26) :
    R.backward (R.forward x) = x :=
  rotorBackward_forward R (rotorNew_wf h) hx

/-- Rotor I at position 0, ring setting 0. -/
def rotorI00 : Rotor :=
  match Rotor.new "I" 0 0 with
  | .ok r => r
  | _ => default

/-- Claim C6, witness: the inverse property evaluated on rotor I at position
0, ring setting 0, symbol 0. -/
theorem c6_witness : rotorI00.backward (rotorI00.forward 0) = 0 :=
  c6_backward_forward "I" 0 0 rotorI00 rfl 0 (by decide)

/-- Claim C7: the unrecognized rotor name "IX" is reported as a structured
error, but the plugboard pair list ["AB","AC"] is not — the uppercase bytes
underflow the `b - 97` wire conversion and the table update panics (`none`),
instead of reporting the duplicate letter A as an error value. -/
theorem c7_construction_failures :
    Rotor.new "IX" 0 0 = Except.error rotorNameMsg ∧
    Plugboard.new ["AB", "AC"] = none :=
  ⟨rfl, rfl⟩

/-- Claim C8, counterexample: the tuple-based rotor of components.rs stores
the supplied position unreduced — rotor II built with position 30 keeps
position 30, not 30 mod 26 = 4, and its notch test differs from the rotor
built with position 4. -/
theorem c8_counterexample :
    (MV.Rotor.ii 0 30).position = 30 ∧ 30 % 26 = 4 ∧
    ¬((MV.Rotor.ii 0 30).position = 30 % 26) ∧
    (MV.Rotor.ii 0 30).at_notch = false ∧
    (MV.Rotor.ii 0 4).at_notch = true :=
  ⟨rfl, rfl, by decide, rfl, rfl⟩

/-- Claim C8 (amended, for the `ClockInt`-based rotor of
components/rotor.rs): construction with any supplied integers (p, r) stores
position p mod 26 and ring setting r mod 26, and yields exactly the rotor
constructed with (p mod 26, r mod 26) — hence identical `at_notch`,
`forward` and `backward` behaviour. -/
theorem c8_modular_reduction (name : String) (p r : Nat) :
    Rotor.new name p r = Rotor.new name (p % 26) (r % 26) ∧
    ∀ R : Rotor, Rotor.new name p r = Except.ok R →
      R.position = p % 26 ∧ R.ring_setting = r % 26 := by
  constructor
  · unfold Rotor.new
    cases htf : RotorName.tryFrom name with
    | error e => rfl
    | ok rn =>
      have hp : clockFrom p = clockFrom (p % 26) := by
        unfold clockFrom MAX_VALUE; omega
      have hq : clockFrom r = clockFrom (r % 26) := by
        unfold clockFrom MAX_VALUE; omega
      cases rn <;> (dsimp only; rw [hp, hq])
  · intro R h
    unfold Rotor.new at h
    cases htf : RotorName.tryFrom name with
    | error e => rw [htf] at h; cases h
    | ok rn =>
      rw [htf] at h
      cases rn <;> (injection h with h; subst h; exact ⟨rfl, rfl⟩)

/-- Rotor I built with raw position 30 and raw ring setting 40. -/
def rotorI3040 : Rotor :=
  match Rotor.new "I" 30 40 with
  | .ok r => r
  | _ => default

/-- Claim C8, witness: rotor I built with (30, 40) equals the one built with
(4, 14) and stores position 4, ring setting 14. -/
theorem c8_witness :
    Rotor.new "I" 30 40 = Rotor.new "I" 4 14 ∧
    rotorI3040.position = 4 ∧ rotorI3040.ring_setting = 14 := by
  obtain ⟨h1, h2⟩ := c8_modular_reduction "I" 30 40
  obtain ⟨hp, hr⟩ := h2 rotorI3040 rfl
  exact ⟨h1, hp, hr⟩

/-- Claim C9, counterexample: a one-element rotor specification is rejected
with the rotor-count error, although every component of it is valid. -/
theorem c9_counterexample :
    Enigma.new ["I"] [1] [0] "b" [] = some (Except.error countMsg) := rfl

/-- Claim C9 (amended): machine construction requires at least two rotors:
every two-element specification whose rotor names, reflector kind and
plugboard pairs are individually valid constructs successfully, and the
rotor-count-mismatch error occurs exactly when the three lists have unequal
lengths or at most one rotor is supplied. -/
theorem c9_min_two_rotors :
    (∀ (n1 n2 : String) (r1 r2 p1 p2 : Nat) (rt : String) (pc : List String),
      (∃ R1, Rotor.new n1 p1 r1 = Except.ok R1) →
      (∃ R2, Rotor.new n2 p2 r2 = Except.ok R2) →
      (∃ F, Reflector.new rt = Except.ok F) →
      (∃ P, Plugboard.new pc = some (Except.ok P)) →
      ∃ e, Enigma.new [n1, n2] [r1, r2] [p1, p2] rt pc =
        some (Except.ok e)) ∧
    (∀ (names : List String) (rings poss : List Nat) (rt : String)
      (pc : List String),
      Enigma.new names rings poss rt pc = some (Except.error countMsg) ↔
        (names.length ≠ rings.length ∨ names.length ≠ poss.length ∨
          names.length ≤ 1)) := by
  constructor
  · rintro n1 n2 r1 r2 p1 p2 rt pc ⟨R1, h1⟩ ⟨R2, h2⟩ ⟨F, hf⟩ ⟨P, hp⟩
    have e1 : rotorsFromSpecs [(n1, p1, r1)] = .ok [R1] := by
      unfold rotorsFromSpecs
      rw [h1]
      rfl
    have e2 : rotorsFromSpecs [(n2, p2, r2), (n1, p1, r1)] = .ok [R2, R1] := by
      unfold rotorsFromSpecs
      rw [h2, e1]
    refine ⟨⟨[R2, R1], F, P⟩, ?_⟩
    unfold Enigma.new
    rw [if_neg (by push_neg; exact ⟨rfl, rfl, by simp⟩)]
    have hz : (([n1, n2].zip ([p1, p2].zip [r1, r2])).reverse) =
        [(n2, p2, r2), (n1, p1, r1)] := rfl
    rw [hz, e2, hf]
    unfold Plugboard.new at hp ⊢
    cases hpl : pbLoop pc [] (List.range 26) with
    | none => rw [hpl] at hp; exact Option.noConfusion hp
    | some plr =>
      rw [hpl] at hp
      cases plr with
      | error e => injection hp with hp; cases hp
      | ok w =>
        injection hp with hp
        injection hp with hp
        subst hp
        rfl
  · exact enigmaNew_countMsg_iff

/-- A machine with two valid rotors, constructed through `Enigma.new`. -/
def enigma2 : Enigma :=
  match Enigma.new ["I", "II"] [1, 1] [0, 0] "b" [] with
  | some (.ok e) => e
  | _ => default

/-- Holds when a construction result is a successfully built machine. -/
def isSomeOk (o : Option (Except String Enigma)) : Prop :=
  match o with
  | some (.ok _) => True
  | _ => False

/-- Claim C9, witness: the two-element specification (I, II) with valid
settings constructs successfully, and the one-element specification is
rejected with the rotor-count error. -/
theorem c9_witness :
    isSomeOk (Enigma.new ["I", "II"] [1, 1] [0, 0] "b" []) ∧
    Enigma.new ["I"] [1] [0] "b" [] = some (Except.error countMsg) := by
  constructor
  · obtain ⟨e, he⟩ := c9_min_two_rotors.1 "I" "II" 1 1 0 0 "b" []
      ⟨_, rfl⟩ ⟨_, rfl⟩ ⟨_, rfl⟩ ⟨_, rfl⟩
    unfold isSomeOk
    rw [he]
    trivial
  · exact (c9_min_two_rotors.2 ["I"] [1] [0] "b" []).mpr (by decide)

/-- Claim C10: once a machine with four or more rotors is built, every call
to encrypt leaves the positions of all rotors beyond the first three of the
right-to-left rotor sequence unchanged, keeps every wiring table (of every
rotor, the reflector and the plugboard) intact, and preserves the rotor
count. -/
theorem c10_frame (e : Enigma) (msg : List Nat) (out : List Nat) (e1 : Enigma)
    (_hlen : 4 ≤ e.rotors.length)
    (h : Enigma.encrypt e msg = some (out, e1)) :
    e1.rotors.length = e.rotors.length ∧
    (∀ i : Nat, 3 ≤ i → e1.rotors[i]? = e.rotors[i]?) ∧
    (∀ i : Nat, (e1.rotors[i]?).map Rotor.wiring =
      (e.rotors[i]?).map Rotor.wiring) ∧
    (∀ i : Nat, (e1.rotors[i]?).map Rotor.inverse_wiring =
      (e.rotors[i]?).map Rotor.inverse_wiring) ∧
    e1.reflector = e.reflector ∧ e1.plugboard = e.plugboard := by
  obtain ⟨⟨ha, hb, hc, hd⟩, hr, hp⟩ :=
    encryptBytes_frame (msg.map asciiToLower) e h
  exact ⟨ha, hb, hc, hd, hr, hp⟩

/-- A four-rotor machine. -/
def enigma4 : Enigma :=
  match Enigma.new ["I", "II", "III", "IV"] [1, 1, 1, 1] [0, 0, 0, 0] "b" [] with
  | some (.ok e) => e
  | _ => default

/-- Output of the four-rotor machine on "a". -/
def enigma4Out : List Nat :=
  match Enigma.encrypt enigma4 [97] with
  | some (o, _) => o
  | _ => []

/-- State of the four-rotor machine after "a". -/
def enigma4After : Enigma :=
  match Enigma.encrypt enigma4 [97] with
  | some (_, e) => e
  | _ => default

/-- Claim C10, witness: after encrypting "a" on the four-rotor machine, the
fourth rotor is untouched, the rightmost rotor keeps its wiring, and the
reflector and plugboard are unchanged. -/
theorem c10_witness :
    enigma4After.rotors[3]? = enigma4.rotors[3]? ∧
    (enigma4After.rotors[0]?).map Rotor.wiring =
      (enigma4.rotors[0]?).map Rotor.wiring ∧
    enigma4After.reflector = enigma4.reflector ∧
    enigma4After.plugboard = enigma4.plugboard := by
  obtain ⟨hl, h3, hw, hiw, hr, hp⟩ :=
    c10_frame enigma4 [97] enigma4Out enigma4After (by decide) rfl
  exact ⟨h3 3 (by decide), hw 0, hr, hp⟩
